import Mathlib

/-!
Verification of the hierarchical block nesting engine:
the Pandoc Lua filter (part-filter.lua) that turns Divs marked as
parts into exam-class LaTeX commands, and the interactive
indent command of the editor part node (part.ts).

Pandoc block trees are embedded shallowly: a block is a Div
(identifier, classes, key/value attributes, child blocks), a raw
block (format, text), or an opaque other block.  Lua string
patterns used by the filter are embedded as explicit character
scans.
-/

/-- Shallow embedding of the Pandoc block values the filter inspects.
Divs carry identifier, classes, key/value attributes and content;
raw blocks carry a format and text; every other block shape is
opaque to the filter and is represented by a tag. -/
inductive Block where
  | div (identifier : String) (classes : List String)
        (attributes : List (String × String)) (content : List Block)
  | raw (format : String) (text : String)
  | other (tag : Nat)
deriving Repr

mutual

/-- Decidable equality for blocks (the nested List Block field keeps
the deriving handler from producing this automatically). -/
def Block.decEq : (a b : Block) → Decidable (a = b)
  | .div i1 c1 a1 x1, .div i2 c2 a2 x2 =>
    if h1 : i1 = i2 then
      if h2 : c1 = c2 then
        if h3 : a1 = a2 then
          match Block.decEqList x1 x2 with
          | isTrue h4 => isTrue (by rw [h1, h2, h3, h4])
          | isFalse h4 => isFalse (by intro h; injection h; contradiction)
        else isFalse (by intro h; injection h; contradiction)
      else isFalse (by intro h; injection h; contradiction)
    else isFalse (by intro h; injection h; contradiction)
  | .div _ _ _ _, .raw _ _ => isFalse (by intro h; exact Block.noConfusion h)
  | .div _ _ _ _, .other _ => isFalse (by intro h; exact Block.noConfusion h)
  | .raw _ _, .div _ _ _ _ => isFalse (by intro h; exact Block.noConfusion h)
  | .raw f1 t1, .raw f2 t2 =>
    if h1 : f1 = f2 then
      if h2 : t1 = t2 then isTrue (by rw [h1, h2])
      else isFalse (by intro h; injection h; contradiction)
    else isFalse (by intro h; injection h; contradiction)
  | .raw _ _, .other _ => isFalse (by intro h; exact Block.noConfusion h)
  | .other _, .div _ _ _ _ => isFalse (by intro h; exact Block.noConfusion h)
  | .other _, .raw _ _ => isFalse (by intro h; exact Block.noConfusion h)
  | .other n1, .other n2 =>
    if h1 : n1 = n2 then isTrue (by rw [h1])
    else isFalse (by intro h; injection h; contradiction)

/-- Decidable equality for lists of blocks, mutually with
Block.decEq. -/
def Block.decEqList : (a b : List Block) → Decidable (a = b)
  | [], [] => isTrue rfl
  | [], _ :: _ => isFalse (by intro h; exact List.noConfusion h)
  | _ :: _, [] => isFalse (by intro h; exact List.noConfusion h)
  | a :: as, b :: bs =>
    match Block.decEq a b, Block.decEqList as bs with
    | isTrue h1, isTrue h2 => isTrue (by rw [h1, h2])
    | isFalse h1, _ => isFalse (by intro h; injection h; contradiction)
    | isTrue _, isFalse h2 => isFalse (by intro h; injection h; contradiction)

end

instance : DecidableEq Block := Block.decEq

/-- Character class of the Lua pattern %s (C isspace, default locale). -/
def luaIsSpace (c : Char) : Bool :=
  c = ' ' || c = '\t' || c = '\n' || c = '\x0b' || c = '\x0c' || c = '\r'

/-- The trim idiom of the filter: p:match of anchored spaces, capture,
spaces; equivalently dropping leading and trailing %s characters. -/
def luaTrim (s : String) : String :=
  String.mk (((s.toList.dropWhile luaIsSpace).reverse.dropWhile luaIsSpace).reverse)

/-- has_text from the source: the string has a %S match, i.e. some
non-space character.  The nil case (absent attribute) is false. -/
def has_text : Option String → Bool
  | none => false
  | some s => s.toList.any (fun c => !(luaIsSpace c))

/-- The body of the Lua pattern match for points: anchored
digits, optional dot, digits (possibly none), end of string. -/
def lua_points_match (cs : List Char) : Bool :=
  let ds := cs.takeWhile Char.isDigit
  let rest := cs.dropWhile Char.isDigit
  !ds.isEmpty &&
    (match rest with
     | [] => true
     | '.' :: rest2 => rest2.all Char.isDigit
     | _ => false)

/-- normalize_points from the source: nil propagates, otherwise trim
and return the trimmed string when the digits-dot-digits pattern
matches, else nil. -/
def normalize_points : Option String → Option String
  | none => none
  | some p =>
    let t := luaTrim p
    if lua_points_match t.toList then some t else none

/-- command_for_depth from the source. -/
def command_for_depth (d : Nat) : String :=
  if d ≤ 1 then "\\question"
  else if d = 2 then "\\part"
  else if d = 3 then "\\subpart"
  else "\\subsubpart"

/-- env_for_child_depth from the source. -/
def env_for_child_depth (d : Nat) : Option String :=
  if d = 2 then some "parts"
  else if d = 3 then some "subparts"
  else if d ≥ 4 then some "subsubparts"
  else none

/-- is_part_div from the source: a Div with class part or
identifier part. -/
def is_part_div : Block → Bool
  | .div identifier classes _ _ => classes.contains "part" || identifier = "part"
  | _ => false

/-- is_solution_div from the source: a Div with class solution or
examsolution. -/
def is_solution_div : Block → Bool
  | .div _ classes _ _ => classes.contains "solution" || classes.contains "examsolution"
  | _ => false

/-- Attribute table lookup: the value of the first pair with the
given key, as the Lua attributes index returns. -/
def lookupAttr (attrs : List (String × String)) (key : String) : Option String :=
  match attrs with
  | [] => none
  | (k, v) :: rest => if k = key then some v else lookupAttr rest key

/-- The points fall-back chain of the source: attributes points or
point or pts or p (Lua or over present values; an empty string is
present). -/
def points_attr (attrs : List (String × String)) : Option String :=
  (((lookupAttr attrs "points").orElse
    (fun _ => lookupAttr attrs "point")).orElse
    (fun _ => lookupAttr attrs "pts")).orElse
    (fun _ => lookupAttr attrs "p")

/-- The space fall-back chain of the solution branch: attributes
space or data-space or sp. -/
def space_attr (attrs : List (String × String)) : Option String :=
  ((lookupAttr attrs "space").orElse
    (fun _ => lookupAttr attrs "data-space")).orElse
    (fun _ => lookupAttr attrs "sp")

/-- The bracket built by the source for points and space values:
empty unless the value is present and non-empty. -/
def bracket_of : Option String → String
  | none => ""
  | some v => if v ≠ "" then "[" ++ v ++ "]" else ""

/-- The command line the part branch of transform_blocks builds at
the given new depth from the title attribute and the points
bracket. -/
def cmdline_for (new_depth : Nat) (title : Option String) (bracket : String) : String :=
  if new_depth = 1 then
    if has_text title then
      "\\titledquestion\x7b" ++ title.getD "" ++ "\x7d" ++ bracket
    else
      "\\question" ++ bracket
  else
    command_for_depth new_depth ++ bracket

/-- The begin marker blocks for a run of part children scanned at
depth nd (the children transform at depth nd, so their own depth is
nd + 1 and the environment is chosen for that depth): one raw block
when env_for_child_depth yields a name, none otherwise. -/
def beginEnvBlocks (nd : Nat) : List Block :=
  match env_for_child_depth (nd + 1) with
  | some e => [.raw "tex" ("\\begin\x7b" ++ e ++ "\x7d")]
  | none => []

/-- The end marker blocks matching beginEnvBlocks. -/
def endEnvBlocks (nd : Nat) : List Block :=
  match env_for_child_depth (nd + 1) with
  | some e => [.raw "tex" ("\\end\x7b" ++ e ++ "\x7d")]
  | none => []

mutual

/-- One iteration of the outer while loop of transform_blocks on a
single block b at current depth d; the loop appends these outputs
block by block, so the whole loop is transform_blocks below. -/
def transform_block : Block → Nat → List Block
  | .div ident classes attrs content, d =>
    if is_part_div (.div ident classes attrs content) then
      let new_depth := d + 1
      let bracket := bracket_of (normalize_points (points_attr attrs))
      .raw "tex" (cmdline_for new_depth (lookupAttr attrs "title") bracket) ::
        scan_children content new_depth
    else if is_solution_div (.div ident classes attrs content) then
      .raw "tex" ("\\begin\x7bsolution\x7d" ++ bracket_of (space_attr attrs)) ::
        (transform_blocks content d ++ [.raw "tex" "\\end\x7bsolution\x7d"])
    else
      [.div ident classes attrs (transform_blocks content d)]
  | b, _ => [b]

/-- transform_blocks from the source: the outer while loop, which
handles each block of the list independently in order. -/
def transform_blocks : List Block → Nat → List Block
  | [], _ => []
  | b :: rest, d => transform_block b d ++ transform_blocks rest d

/-- The child scanning loop of the part branch, outside a run of
part children: on a part child it opens the environment and enters
the run; on any other child it transforms it inline at the same
depth. -/
def scan_children : List Block → Nat → List Block
  | [], _ => []
  | c :: rest, nd =>
    if is_part_div c then
      beginEnvBlocks nd ++ (transform_block c nd ++ scan_run rest nd)
    else
      transform_block c nd ++ scan_children rest nd

/-- The child scanning loop inside a run of part children: it keeps
transforming part children, and closes the environment when the run
ends (at a non-part child or at the end of the children). -/
def scan_run : List Block → Nat → List Block
  | [], nd => endEnvBlocks nd
  | c :: rest, nd =>
    if is_part_div c then
      transform_block c nd ++ scan_run rest nd
    else
      endEnvBlocks nd ++ (transform_block c nd ++ scan_children rest nd)

end

/-- Literal-by-literal match of a pattern character list at the
front of a text character list, returning the remainder on
success. -/
def stripLit : List Char → List Char → Option (List Char)
  | [], rest => some rest
  | _ :: _, [] => none
  | p :: ps, c :: cs => if c = p then stripLit ps cs else none

/-- The anchored Lua match for the begin-questions marker: the
literal, then only %s characters to the end of the string. -/
def is_begin_questions : Block → Bool
  | .raw "tex" t =>
    match stripLit "\\begin\x7bquestions\x7d".toList t.toList with
    | some rest => rest.all luaIsSpace
    | none => false
  | _ => false

/-- The anchored Lua match for the end-questions marker. -/
def is_end_questions : Block → Bool
  | .raw "tex" t =>
    match stripLit "\\end\x7bquestions\x7d".toList t.toList with
    | some rest => rest.all luaIsSpace
    | none => false
  | _ => false

/-- The unanchored-at-the-right Lua matches for a question command:
the text begins with titledquestion or question. -/
def is_question_cmd : Block → Bool
  | .raw "tex" t =>
    (stripLit "\\titledquestion".toList t.toList).isSome ||
      (stripLit "\\question".toList t.toList).isSome
  | _ => false

/-- What the relocator emits for one begin-questions segment: the
begin marker b, the blocks collected before the end marker, and the
tail (end marker plus relocated remainder, or nothing when no end
marker was found).  When a question command occurs at 1-based index
greater than one, the preface before it moves in front of the begin
marker. -/
def reorder_segment (b : Block) (inside tail : List Block) : List Block :=
  match inside.findIdx? is_question_cmd with
  | some k =>
    if k > 0 then inside.take k ++ b :: (inside.drop k ++ tail)
    else b :: (inside ++ tail)
  | none => b :: (inside ++ tail)

/-- Name of the environment begun by a tex line, read the way the
emitted markers are written: the begin literal, then the name up to
the first closing brace (nothing is parsed when no closing brace
follows). -/
def begin_env_name (t : String) : Option String :=
  match stripLit "\\begin\x7b".toList t.toList with
  | some rest =>
    if rest.contains '\x7d' then
      some (String.mk (rest.takeWhile (fun c => c != '\x7d')))
    else none
  | none => none

/-- Name of the environment ended by a tex line. -/
def end_env_name (t : String) : Option String :=
  match stripLit "\\end\x7b".toList t.toList with
  | some rest =>
    if rest.contains '\x7d' then
      some (String.mk (rest.takeWhile (fun c => c != '\x7d')))
    else none
  | none => none

mutual

/-- The tex texts of a block stream in traversal order, recursing
into Div content, for stating the balance property. -/
def tex_texts : Block → List String
  | .div _ _ _ content => tex_texts_list content
  | .raw f t => if f = "tex" then [t] else []
  | .other _ => []

/-- List version of tex_texts. -/
def tex_texts_list : List Block → List String
  | [] => []
  | b :: rest => tex_texts b ++ tex_texts_list rest

end

/-- One step of the balance checker: push on a begin marker, pop on
an end marker whose name matches the top of the stack (failing on a
mismatch or an empty stack), ignore everything else. -/
def bal_step (st : List String) (t : String) : Option (List String) :=
  match begin_env_name t with
  | some e => some (e :: st)
  | none =>
    match end_env_name t with
    | some e =>
      match st with
      | e2 :: st2 => if e = e2 then some st2 else none
      | [] => none
    | none => some st

/-- The balance checker over a list of tex texts, from a given open
environment stack. -/
def check_bal (st : List String) : List String → Option (List String)
  | [] => some st
  | t :: rest =>
    match bal_step st t with
    | some st2 => check_bal st2 rest
    | none => none

mutual

/-- A block is marker-free when none of its tex texts parses as a
begin or end environment marker (so every marker in the transform
output was emitted by the transform itself). -/
def marker_free : Block → Bool
  | .div _ _ _ content => marker_free_list content
  | .raw f t => !(f = "tex" && ((begin_env_name t).isSome || (end_env_name t).isSome))
  | .other _ => true

/-- List version of marker_free. -/
def marker_free_list : List Block → Bool
  | [] => true
  | b :: rest => marker_free b && marker_free_list rest

end

mutual

/-- Container nesting depth of a block: part Divs count one level,
all other blocks are transparent. -/
def part_depth : Block → Nat
  | .div i c a content =>
    (if is_part_div (.div i c a content) then 1 else 0) + part_depth_list content
  | _ => 0

/-- Greatest container nesting depth of any block of the list. -/
def part_depth_list : List Block → Nat
  | [] => 0
  | b :: rest => max (part_depth b) (part_depth_list rest)

end

mutual

/-- Size measure for blocks, for strong induction. -/
def blockSize : Block → Nat
  | .div _ _ _ content => 1 + blockListSize content
  | _ => 1

/-- Size measure for block lists. -/
def blockListSize : List Block → Nat
  | [] => 0
  | b :: rest => blockSize b + blockListSize rest

end

/-- Dropping a satisfying prefix never lengthens a list. -/
theorem dropWhile_length_le (p : α → Bool) (l : List α) :
    (l.dropWhile p).length ≤ l.length := by
  induction l with
  | nil => simp
  | cons a l ih =>
    by_cases h : p a
    · simp only [List.dropWhile_cons_of_pos h, List.length_cons]
      exact Nat.le_succ_of_le ih
    · simp [List.dropWhile_cons_of_neg h]

/-- The grouping rule as the specification words it: each maximal
run of consecutive part children is wrapped in exactly one
begin/end environment pair, non-part children are emitted inline
between pairs.  Compared against scan_children, the child scanning
loop of the source. -/
def wrap_runs (nd : Nat) : List Block → List Block
  | [] => []
  | c :: rest =>
    if is_part_div c then
      beginEnvBlocks nd ++
        ((c :: rest.takeWhile is_part_div).flatMap (fun b => transform_block b nd) ++
          (endEnvBlocks nd ++ wrap_runs nd (rest.dropWhile is_part_div)))
    else
      transform_block c nd ++ wrap_runs nd rest
termination_by l => l.length
decreasing_by
  · simp only [List.length_cons]
    exact Nat.lt_succ_of_le (dropWhile_length_le _ _)
  · simp

mutual

/-- relocate_questions_preface from the source: the outer while
loop over the top-level blocks. -/
def relocate_questions_preface : List Block → List Block
  | [] => []
  | b :: rest =>
    if is_begin_questions b then collect_inside b [] rest
    else b :: relocate_questions_preface rest

/-- The inner while loop of the relocator: collect blocks after the
begin marker until an end-questions marker or the end of the list,
then emit the reordered segment; scanning resumes after the end
marker. -/
def collect_inside (b : Block) (acc : List Block) : List Block → List Block
  | [] => reorder_segment b acc.reverse []
  | x :: rest =>
    if is_end_questions x then
      reorder_segment b acc.reverse (x :: relocate_questions_preface rest)
    else
      collect_inside b (x :: acc) rest

end

/-- The in-run scanning loop written with explicit maximal-run
structure: it transforms the remaining part prefix, closes the
environment, and resumes outside-run scanning at the first non-part
child. -/
theorem scan_run_eq (bs : List Block) (nd : Nat) :
    scan_run bs nd =
      (bs.takeWhile is_part_div).flatMap (fun b => transform_block b nd) ++
        (endEnvBlocks nd ++ scan_children (bs.dropWhile is_part_div) nd) := by
  induction bs with
  | nil => simp [scan_run, scan_children]
  | cons c rest ih =>
    by_cases hc : is_part_div c
    · simp [scan_run, hc, ih, List.takeWhile_cons_of_pos hc,
        List.dropWhile_cons_of_pos hc]
    · simp [scan_run, scan_children, hc, List.takeWhile_cons_of_neg hc,
        List.dropWhile_cons_of_neg hc]

/-- Bounded version of the run-grouping equality, by strong
induction on the length bound. -/
theorem scan_children_eq_wrap_runs_aux :
    ∀ (n : Nat) (bs : List Block), bs.length ≤ n → ∀ nd,
      scan_children bs nd = wrap_runs nd bs := by
  intro n
  induction n with
  | zero =>
    intro bs hbs nd
    have : bs = [] := List.length_eq_zero.mp (Nat.le_zero.mp hbs)
    subst this
    simp [scan_children, wrap_runs]
  | succ n ih =>
    intro bs hbs nd
    match bs with
    | [] => simp [scan_children, wrap_runs]
    | c :: rest =>
      by_cases hc : is_part_div c
      · have hrest : (rest.dropWhile is_part_div).length ≤ n := by
          have h1 := dropWhile_length_le is_part_div rest
          have h2 : rest.length ≤ n := Nat.le_of_succ_le_succ (by simpa using hbs)
          exact Nat.le_trans h1 h2
        rw [scan_children, wrap_runs]
        simp only [hc, if_pos, scan_run_eq, ih _ hrest nd]
        simp
      · have hrest : rest.length ≤ n := Nat.le_of_succ_le_succ (by simpa using hbs)
        rw [scan_children, wrap_runs]
        simp [hc, ih _ hrest nd]

/-- Claim C1: for every parent Container, the child scanning loop of
the batch transform wraps exactly each maximal run of consecutive
part children in exactly one begin/end environment pair named for
the child depth (scan_children equals wrap_runs, whose recursion is
literally one pair per maximal part run, non-part children inline);
and in the concrete scenario of three depth-2 parts A, B, C with a
stray non-part block between B and C, the output wraps A and B in
one parts pair, emits the stray block inline, and wraps C in a
second parts pair of its own. -/
theorem grouping_wraps_maximal_runs :
    (∀ (children : List Block) (nd : Nat),
        scan_children children nd = wrap_runs nd children) ∧
    transform_block
        (.div "" ["part"] []
          [.div "A" ["part"] [] [], .div "B" ["part"] [] [], .other 0,
            .div "C" ["part"] [] []]) 0 =
      [.raw "tex" "\\question",
       .raw "tex" "\\begin\x7bparts\x7d", .raw "tex" "\\part", .raw "tex" "\\part",
       .raw "tex" "\\end\x7bparts\x7d",
       .other 0,
       .raw "tex" "\\begin\x7bparts\x7d", .raw "tex" "\\part",
       .raw "tex" "\\end\x7bparts\x7d"] :=
  ⟨fun bs nd => scan_children_eq_wrap_runs_aux bs.length bs le_rfl nd, by decide⟩

/-- Claim C3: a part Div at depth 1 whose title attribute is present
and not whitespace-only is emitted as the titledquestion command
with the title in the brace group and the optional points bracket
appended immediately after the closing brace. -/
theorem titledquestion_at_depth_one
    (ident : String) (classes : List String) (attrs : List (String × String))
    (content : List Block) (t : String)
    (hpart : is_part_div (.div ident classes attrs content) = true)
    (htitle : lookupAttr attrs "title" = some t)
    (htext : has_text (some t) = true) :
    transform_block (.div ident classes attrs content) 0 =
      .raw "tex" ("\\titledquestion\x7b" ++ t ++ "\x7d" ++
          bracket_of (normalize_points (points_attr attrs))) ::
        scan_children content 1 := by
  simp [transform_block, hpart, cmdline_for, htitle, htext]

/-- Witness for C3: the scenario of the specification, a depth-1
Container with title Warm-up and points 2.5. -/
theorem titledquestion_at_depth_one_witness :
    transform_block (.div "" ["part"] [("title", "Warm-up"), ("points", "2.5")] []) 0 =
      [.raw "tex" "\\titledquestion\x7bWarm-up\x7d[2.5]"] := by
  have h := titledquestion_at_depth_one "" ["part"]
    [("title", "Warm-up"), ("points", "2.5")] [] "Warm-up"
    (by decide) (by decide) (by decide)
  rw [h]; decide

/-- Claim C5: the role is clamped at depth 4: every depth of at
least 4 gets the subsubpart command and the subsubparts
environment; no command or environment name beyond the four
depth-1..4 ones is ever produced at any depth; and a part Div
transformed at current depth 3 or more (so its own depth is 4 or
more) emits the subsubpart command, its child runs opening and
closing the subsubparts environment. -/
theorem depth_clamped_at_four (d : Nat) (hd : 4 ≤ d) :
    command_for_depth d = "\\subsubpart" ∧
    env_for_child_depth d = some "subsubparts" ∧
    (∀ e, command_for_depth e ∈
      ["\\question", "\\part", "\\subpart", "\\subsubpart"]) ∧
    (∀ e, env_for_child_depth e ∈
      [none, some "parts", some "subparts", some "subsubparts"]) ∧
    (∀ nd, 3 ≤ nd →
      beginEnvBlocks nd = [.raw "tex" "\\begin\x7bsubsubparts\x7d"] ∧
      endEnvBlocks nd = [.raw "tex" "\\end\x7bsubsubparts\x7d"]) ∧
    (∀ ident classes attrs content cd, 3 ≤ cd →
      is_part_div (.div ident classes attrs content) = true →
      transform_block (.div ident classes attrs content) cd =
        .raw "tex" ("\\subsubpart" ++
            bracket_of (normalize_points (points_attr attrs))) ::
          scan_children content (cd + 1)) := by
  have hcmd : ∀ e, 4 ≤ e → command_for_depth e = "\\subsubpart" := by
    intro e he
    have h1 : ¬ e ≤ 1 := by omega
    have h2 : e ≠ 2 := by omega
    have h3 : e ≠ 3 := by omega
    simp [command_for_depth, h1, h2, h3]
  have henv : ∀ e, 4 ≤ e → env_for_child_depth e = some "subsubparts" := by
    intro e he
    have h2 : e ≠ 2 := by omega
    have h3 : e ≠ 3 := by omega
    simp [env_for_child_depth, h2, h3, he]
  refine ⟨hcmd d hd, henv d hd, ?_, ?_, ?_, ?_⟩
  · intro e
    by_cases h1 : e ≤ 1
    · simp [command_for_depth, h1]
    · by_cases h2 : e = 2
      · simp [command_for_depth, h1, h2]
      · by_cases h3 : e = 3
        · simp [command_for_depth, h1, h2, h3]
        · simp [command_for_depth, h1, h2, h3]
  · intro e
    by_cases h2 : e = 2
    · simp [env_for_child_depth, h2]
    · by_cases h3 : e = 3
      · simp [env_for_child_depth, h2, h3]
      · by_cases h4 : 4 ≤ e
        · simp [env_for_child_depth, h2, h3, h4]
        · simp [env_for_child_depth, h2, h3, h4]
  · intro nd hnd
    constructor
    · simp [beginEnvBlocks, henv (nd + 1) (by omega)]
    · simp [endEnvBlocks, henv (nd + 1) (by omega)]
  · intro ident classes attrs content cd hcd hpart
    have hne : ¬ cd + 1 = 1 := by omega
    simp [transform_block, hpart, cmdline_for, hne, hcmd (cd + 1) (by omega)]

/-- Witness for C5 at depth 6 and a concrete deep part Div. -/
theorem depth_clamped_at_four_witness :
    command_for_depth 6 = "\\subsubpart" ∧
    transform_block (.div "" ["part"] [] []) 5 =
      [.raw "tex" "\\subsubpart"] := by
  have h := depth_clamped_at_four 6 (by decide)
  refine ⟨h.1, ?_⟩
  have h6 := h.2.2.2.2.2 "" ["part"] [] [] 5 (by decide) (by decide)
  rw [h6]; decide

/-- A bracketed value is never the empty string. -/
theorem bracket_nonempty (v : String) : "[" ++ v ++ "]" ≠ "" := by
  intro h
  have := congrArg String.length h
  simp [String.length_append] at this
  exact absurd this.1.1 (by decide)

/-- Claim C6: a solution Div encountered at current depth d is
emitted as the begin-solution marker (carrying the space bracket
exactly when the resolved space attribute is present and
non-empty), then its children transformed at the unchanged depth d,
then the end-solution marker. -/
theorem solution_block_transform
    (ident : String) (classes : List String) (attrs : List (String × String))
    (content : List Block) (d : Nat)
    (hnotpart : is_part_div (.div ident classes attrs content) = false)
    (hsol : is_solution_div (.div ident classes attrs content) = true) :
    transform_block (.div ident classes attrs content) d =
      .raw "tex" ("\\begin\x7bsolution\x7d" ++ bracket_of (space_attr attrs)) ::
        (transform_blocks content d ++ [.raw "tex" "\\end\x7bsolution\x7d"]) ∧
    (bracket_of (space_attr attrs) = "" ↔
      (space_attr attrs = none ∨ space_attr attrs = some "")) := by
  constructor
  · simp [transform_block, hnotpart, hsol]
  · match hsp : space_attr attrs with
    | none => simp [bracket_of]
    | some v =>
      by_cases hv : v = ""
      · subst hv; simp [bracket_of]
      · simp only [bracket_of, if_pos (by simpa using hv)]
        constructor
        · intro h; exact absurd h (bracket_nonempty v)
        · rintro (h | h)
          · exact Option.noConfusion h
          · injection h with h; exact absurd h hv

/-- Witness for C6: a solution Div with space 2in and one content
block, transformed at depth 2. -/
theorem solution_block_transform_witness :
    transform_block (.div "" ["solution"] [("space", "2in")] [.other 3]) 2 =
      [.raw "tex" "\\begin\x7bsolution\x7d[2in]", .other 3,
        .raw "tex" "\\end\x7bsolution\x7d"] := by
  have h := solution_block_transform "" ["solution"] [("space", "2in")]
    [.other 3] 2 (by decide) (by decide)
  rw [h.1]; decide

/-- Claim C10: the batch transform reads points through the
fall-back chain points, point, pts, p in exactly that order, the
first present key winning: a present points key always wins; with
points absent a present point key wins over pts and p; with points
and point absent a present pts key wins over p; with the first
three absent the value is that of p; and a part Div carrying only
pts three is transformed exactly like one carrying only points
three. -/
theorem points_attribute_fallback
    (ident : String) (classes : List String) (content : List Block) (d : Nat)
    (hpart : is_part_div (.div ident classes [("pts", "3")] content) = true) :
    transform_block (.div ident classes [("pts", "3")] content) d =
      transform_block (.div ident classes [("points", "3")] content) d ∧
    (∀ attrs v, lookupAttr attrs "points" = some v →
      points_attr attrs = some v) ∧
    (∀ attrs v, lookupAttr attrs "points" = none →
      lookupAttr attrs "point" = some v →
      points_attr attrs = some v) ∧
    (∀ attrs v, lookupAttr attrs "points" = none →
      lookupAttr attrs "point" = none →
      lookupAttr attrs "pts" = some v →
      points_attr attrs = some v) ∧
    (∀ attrs, lookupAttr attrs "points" = none →
      lookupAttr attrs "point" = none →
      lookupAttr attrs "pts" = none →
      points_attr attrs = lookupAttr attrs "p") := by
  have hpart2 : is_part_div (.div ident classes [("points", "3")] content) = true := by
    simpa [is_part_div] using hpart
  refine ⟨?_, ?_, ?_, ?_, ?_⟩
  · have h1 : points_attr [("pts", "3")] = some "3" := by decide
    have h2 : points_attr [("points", "3")] = some "3" := by decide
    have h3 : lookupAttr [("pts", "3")] "title" = none := by decide
    have h4 : lookupAttr [("points", "3")] "title" = none := by decide
    simp [transform_block, hpart, hpart2, h1, h2, h3, h4]
  · intro attrs v h
    simp [points_attr, h, Option.orElse]
  · intro attrs v h1 h2
    simp [points_attr, h1, h2, Option.orElse]
  · intro attrs v h1 h2 h3
    simp [points_attr, h1, h2, h3, Option.orElse]
  · intro attrs h1 h2 h3
    simp [points_attr, h1, h2, h3, Option.orElse]

/-- Witness for C10: a depth-1 part Div carrying only pts three
emits the same question command with bracket three as one carrying
only points three; and with points absent, a present point key wins
over a pts key even when pts is listed first. -/
theorem points_attribute_fallback_witness :
    transform_block (.div "" ["part"] [("pts", "3")] []) 0 =
      transform_block (.div "" ["part"] [("points", "3")] []) 0 ∧
    transform_block (.div "" ["part"] [("pts", "3")] []) 0 =
      [.raw "tex" "\\question[3]"] ∧
    points_attr [("pts", "7"), ("point", "5")] = some "5" := by
  have h := points_attribute_fallback "" ["part"] [] 0 (by decide)
  exact ⟨h.1, by decide,
    h.2.2.1 [("pts", "7"), ("point", "5")] "5" (by decide) (by decide)⟩

/-- Scanning an append whose left part satisfies the predicate
everywhere and whose right part opens with a failing element. -/
theorem takeWhile_dropWhile_append (p : α → Bool) (l1 l2 : List α)
    (h1 : ∀ a ∈ l1, p a = true)
    (h2 : ∀ x, l2.head? = some x → p x = false) :
    (l1 ++ l2).takeWhile p = l1 ∧ (l1 ++ l2).dropWhile p = l2 := by
  induction l1 with
  | nil =>
    match l2 with
    | [] => simp
    | x :: xs =>
      have := h2 x rfl
      simp [List.takeWhile_cons, List.dropWhile_cons, this]
  | cons a l1 ih =>
    have ha := h1 a (by simp)
    have ih2 := ih (fun b hb => h1 b (by simp [hb]))
    simp [List.takeWhile_cons_of_pos ha, List.dropWhile_cons_of_pos ha, ih2]

/-- Modelled from the spec: the regular expression the
specification claims for points, digits then an optional group of
a dot followed by at least one digit, anchored at both ends.
Greedy digit scanning is exact here because a dot is not a
digit. -/
def spec_points_regex (cs : List Char) : Bool :=
  let ds := cs.takeWhile Char.isDigit
  let rest := cs.dropWhile Char.isDigit
  !ds.isEmpty &&
    (match rest with
     | [] => true
     | '.' :: rest2 => !rest2.isEmpty && rest2.all Char.isDigit
     | _ => false)

/-- Counterexample for C4: the string of a digit followed by a bare
trailing dot is rejected by the regular expression the claim
states, yet normalize_points accepts it and returns it. -/
theorem normalize_points_trailing_dot_counterexample :
    normalize_points (some "3.") = some "3." ∧
    spec_points_regex "3.".toList = false := by decide

/-- Claim C4, amended: normalization trims the string and returns
the trimmed value exactly when it consists of one or more digits
followed by an optional dot with zero or more further digits (the
bare trailing dot is also accepted, unlike the claimed regular
expression); nil propagates, and an absent value produces the empty
bracket.  The shape is stated as an explicit decomposition rather
than by the matcher the implementation runs. -/
theorem normalize_points_characterization :
    (∀ s : String,
      (∃ ds rest, (luaTrim s).toList = ds ++ rest ∧ ds ≠ [] ∧
        ds.all Char.isDigit ∧
        (rest = [] ∨ ∃ fs, rest = '.' :: fs ∧ fs.all Char.isDigit)) →
      normalize_points (some s) = some (luaTrim s)) ∧
    (∀ s t : String, normalize_points (some s) = some t →
      t = luaTrim s ∧
      ∃ ds rest, t.toList = ds ++ rest ∧ ds ≠ [] ∧
        ds.all Char.isDigit ∧
        (rest = [] ∨ ∃ fs, rest = '.' :: fs ∧ fs.all Char.isDigit)) ∧
    normalize_points none = none ∧
    bracket_of none = "" ∧
    normalize_points (some "3in") = none ∧
    normalize_points (some " 12pt ") = none ∧
    normalize_points (some "") = none := by
  refine ⟨?_, ?_, rfl, rfl, by decide, by decide, by decide⟩
  · rintro s ⟨ds, rest, hsplit, hne, hdig, hshape⟩
    have hds : ∀ a ∈ ds, Char.isDigit a = true := by
      intro a ha; exact List.all_eq_true.mp hdig a ha
    have hrest : ∀ x, rest.head? = some x → Char.isDigit x = false := by
      intro x hx
      rcases hshape with h | ⟨fs, hfs, _⟩
      · subst h; exact absurd hx (by simp)
      · subst hfs
        simp only [List.head?_cons, Option.some.injEq] at hx
        subst hx; decide
    have hscan := takeWhile_dropWhile_append Char.isDigit ds rest hds hrest
    have hmatch : lua_points_match (luaTrim s).toList = true := by
      rw [lua_points_match, hsplit]
      simp only [hscan.1, hscan.2]
      rcases hshape with h | ⟨fs, hfs, hfsd⟩
      · subst h
        simp [List.isEmpty_iff, hne]
      · subst hfs
        simp [List.isEmpty_iff, hne, hfsd]
    have hmatch2 : lua_points_match (luaTrim s).data = true := hmatch
    simp [normalize_points, hmatch2]
  · intro s t h
    simp only [normalize_points] at h
    by_cases hm : lua_points_match (luaTrim s).toList = true
    · rw [if_pos hm] at h
      have ht : t = luaTrim s := ((Option.some.injEq _ _).mp h).symm
      have hm2 : lua_points_match t.toList = true := by rw [ht]; exact hm
      rw [lua_points_match] at hm2
      have h12 := (Bool.and_eq_true _ _).mp hm2
      refine ⟨ht, t.toList.takeWhile Char.isDigit, t.toList.dropWhile Char.isDigit,
        (List.takeWhile_append_dropWhile Char.isDigit _).symm, ?_, List.all_takeWhile, ?_⟩
      · intro hnil
        have h1 := h12.1
        rw [hnil] at h1
        exact absurd h1 (by decide)
      · have h2 := h12.2
        split at h2
        · rename_i heq
          exact Or.inl heq
        · rename_i rest2 heq
          exact Or.inr ⟨rest2, heq, h2⟩
        · exact absurd h2 (by decide)
    · rw [if_neg hm] at h
      exact absurd h (by simp)

/-- Witness for the amended C4: the decomposition of 2.5 is
accepted and returned trimmed. -/
theorem normalize_points_characterization_witness :
    normalize_points (some "2.5") = some "2.5" := by
  have h := normalize_points_characterization.1 "2.5"
    ⟨['2'], ['.', '5'], by decide, by decide, by decide,
      Or.inr ⟨['5'], rfl, by decide⟩⟩
  have ht : luaTrim "2.5" = "2.5" := by decide
  rw [ht] at h
  exact h

/-- The blocks the relocator collects after a begin marker:
everything before the first end-questions marker. -/
def seg_inside (l : List Block) : List Block :=
  l.takeWhile (fun x => !is_end_questions x)

/-- What remains from the first end-questions marker on. -/
def seg_rest (l : List Block) : List Block :=
  l.dropWhile (fun x => !is_end_questions x)

/-- No begin-questions marker occurs strictly inside the segment
opened by another begin-questions marker (between it and its end
marker, or to the end of the stream when no end marker follows). -/
def no_nested_begin : List Block → Bool
  | [] => true
  | b :: rest =>
    if is_begin_questions b then
      (seg_inside rest).all (fun x => !is_begin_questions x) &&
        (match hseg : seg_rest rest with
         | [] => true
         | _ :: r2 => no_nested_begin r2)
    else no_nested_begin rest
termination_by l => l.length
decreasing_by
  · have h2 : (seg_rest rest).length ≤ rest.length := by
      simpa [seg_rest] using dropWhile_length_le (fun x => !is_end_questions x) rest
    rw [hseg] at h2
    simp only [List.length_cons] at h2 ⊢
    omega
  · simp

/-- No displacement is needed: in every begin-questions segment the
first question command, if any, sits immediately after the begin
marker. -/
def no_disp_needed : List Block → Bool
  | [] => true
  | b :: rest =>
    if is_begin_questions b then
      (match (seg_inside rest).findIdx? is_question_cmd with
       | some k => decide (k = 0)
       | none => true) &&
        (match hseg : seg_rest rest with
         | [] => true
         | _ :: r2 => no_disp_needed r2)
    else no_disp_needed rest
termination_by l => l.length
decreasing_by
  · have h2 : (seg_rest rest).length ≤ rest.length := by
      simpa [seg_rest] using dropWhile_length_le (fun x => !is_end_questions x) rest
    rw [hseg] at h2
    simp only [List.length_cons] at h2 ⊢
    omega
  · simp

/-- The inner collecting loop in closed form: it reorders the
segment of blocks before the first end-questions marker (prefixed
by the already-collected accumulator) and resumes the outer scan
after the end marker. -/
theorem collect_inside_eq (rest : List Block) (b : Block) (acc : List Block) :
    collect_inside b acc rest =
      reorder_segment b (acc.reverse ++ seg_inside rest)
        (match seg_rest rest with
         | [] => []
         | e :: r2 => e :: relocate_questions_preface r2) := by
  induction rest generalizing acc with
  | nil => simp [collect_inside, seg_inside, seg_rest]
  | cons x rest ih =>
    by_cases hx : is_end_questions x
    · simp [collect_inside, hx, seg_inside, seg_rest,
        List.takeWhile_cons, List.dropWhile_cons]
    · simp only [collect_inside, hx, if_neg, Bool.not_eq_true, ih,
        seg_inside, seg_rest, List.takeWhile_cons, List.dropWhile_cons,
        Bool.not_false, if_true, List.reverse_cons]
      rw [List.append_assoc]
      simp

/-- The outer relocator loop on a begin-questions head, in closed
form. -/
theorem relocate_cons_begin (b : Block) (rest : List Block)
    (hb : is_begin_questions b = true) :
    relocate_questions_preface (b :: rest) =
      reorder_segment b (seg_inside rest)
        (match seg_rest rest with
         | [] => []
         | e :: r2 => e :: relocate_questions_preface r2) := by
  rw [relocate_questions_preface, if_pos hb, collect_inside_eq]
  simp

/-- The outer relocator loop on any other head. -/
theorem relocate_cons_not_begin (b : Block) (rest : List Block)
    (hb : is_begin_questions b = false) :
    relocate_questions_preface (b :: rest) =
      b :: relocate_questions_preface rest := by
  rw [relocate_questions_preface, if_neg (by simp [hb])]

/-- Splitting a list at the first end-questions marker and putting
the pieces back together. -/
theorem seg_split (l : List Block) : seg_inside l ++ seg_rest l = l := by
  simp [seg_inside, seg_rest, List.takeWhile_append_dropWhile]

/-- Bounded form: when no displacement is needed the relocator
returns the stream unchanged. -/
theorem relocate_no_disp_aux :
    ∀ (n : Nat) (bs : List Block), bs.length ≤ n → no_disp_needed bs = true →
      relocate_questions_preface bs = bs := by
  intro n
  induction n with
  | zero =>
    intro bs hl _
    have : bs = [] := List.length_eq_zero.mp (Nat.le_zero.mp hl)
    subst this
    simp [relocate_questions_preface]
  | succ n ih =>
    intro bs hl h
    match bs with
    | [] => simp [relocate_questions_preface]
    | b :: rest =>
      by_cases hb : is_begin_questions b
      · rw [relocate_cons_begin b rest hb]
        rw [no_disp_needed, if_pos hb] at h
        obtain ⟨h1, h2⟩ := (Bool.and_eq_true _ _).mp h
        have hsplit := seg_split rest
        have hrl : rest.length ≤ n := by
          simpa using Nat.le_of_succ_le_succ (by simpa using hl)
        split at h2
        · rename_i hseg
          rw [hseg] at hsplit
          simp only [List.append_nil] at hsplit
          rw [hseg, reorder_segment]
          split at h1
          · rename_i k hidx
            have hk : k = 0 := of_decide_eq_true h1
            subst hk
            simp [hsplit]
          · simp [hsplit]
        · rename_i e r2 hseg
          rw [hseg] at hsplit
          have hr2 : r2.length ≤ n := by
            have hle : (seg_rest rest).length ≤ rest.length := by
              simpa [seg_rest] using
                dropWhile_length_le (fun x => !is_end_questions x) rest
            rw [hseg] at hle
            simp only [List.length_cons] at hle
            omega
          rw [hseg, reorder_segment]
          split at h1
          · rename_i k hidx
            have hk : k = 0 := of_decide_eq_true h1
            subst hk
            simp [hsplit, ih r2 hr2 h2]
          · simp [hsplit, ih r2 hr2 h2]
      · rw [relocate_cons_not_begin b rest (by simpa using hb)]
        rw [no_disp_needed] at h
        rw [if_neg hb] at h
        have hrl : rest.length ≤ n := by
          simpa using Nat.le_of_succ_le_succ (by simpa using hl)
        rw [ih rest hrl h]

/-- A prefix containing no begin-questions marker does not affect
the displacement check. -/
theorem no_disp_append_of_no_begin (pre l : List Block)
    (h : ∀ x ∈ pre, is_begin_questions x = false) :
    no_disp_needed (pre ++ l) = no_disp_needed l := by
  induction pre with
  | nil => simp
  | cons a pre ih =>
    have ha := h a (by simp)
    rw [List.cons_append, no_disp_needed, if_neg (by simp [ha])]
    exact ih (fun x hx => h x (by simp [hx]))

/-- Segment decomposition of an append whose left part carries no
end-questions marker and whose right part opens with one (or is
empty). -/
theorem seg_of_append (inside tail : List Block)
    (hin : ∀ x ∈ inside, is_end_questions x = false)
    (htl : ∀ x, tail.head? = some x → is_end_questions x = true) :
    seg_inside (inside ++ tail) = inside ∧ seg_rest (inside ++ tail) = tail := by
  have := takeWhile_dropWhile_append (fun x => !is_end_questions x) inside tail
    (fun a ha => by simp [hin a ha]) (fun x hx => by simp [htl x hx])
  exact ⟨this.1, this.2⟩

/-- The displacement check accepts a begin-questions segment whose
first question command, if any, opens the collected content, and
whose tail is empty or an end marker followed by an accepted
stream. -/
theorem no_disp_cons_begin (b : Block) (hb : is_begin_questions b = true)
    (inside tail : List Block)
    (hin : ∀ x ∈ inside, is_end_questions x = false)
    (htl : ∀ x, tail.head? = some x → is_end_questions x = true)
    (hq : inside.findIdx? is_question_cmd = none ∨
      inside.findIdx? is_question_cmd = some 0)
    (htail : tail = [] ∨ ∃ e L, tail = e :: L ∧ no_disp_needed L = true) :
    no_disp_needed (b :: (inside ++ tail)) = true := by
  rw [no_disp_needed, if_pos hb]
  have hseg := seg_of_append inside tail hin htl
  rw [hseg.1, hseg.2]
  refine (Bool.and_eq_true _ _).mpr ⟨?_, ?_⟩
  · rcases hq with hq | hq
    · rw [hq]
    · rw [hq]
      decide
  · rcases htail with rfl | ⟨e, L, rfl, hL⟩
    · rfl
    · exact hL

/-- Bounded form: relocating a stream without nested begin markers
leaves nothing displaced. -/
theorem no_disp_of_relocate_aux :
    ∀ (n : Nat) (bs : List Block), bs.length ≤ n → no_nested_begin bs = true →
      no_disp_needed (relocate_questions_preface bs) = true := by
  intro n
  induction n with
  | zero =>
    intro bs hl _
    have : bs = [] := List.length_eq_zero.mp (Nat.le_zero.mp hl)
    subst this
    simp [relocate_questions_preface, no_disp_needed]
  | succ n ih =>
    intro bs hl h
    match bs with
    | [] => simp [relocate_questions_preface, no_disp_needed]
    | b :: rest =>
      have hrl : rest.length ≤ n := by
        simpa using Nat.le_of_succ_le_succ (by simpa using hl)
      by_cases hb : is_begin_questions b
      · rw [relocate_cons_begin b rest hb]
        rw [no_nested_begin, if_pos hb] at h
        obtain ⟨hallb, h2⟩ := (Bool.and_eq_true _ _).mp h
        have hallb2 : ∀ x ∈ seg_inside rest, is_begin_questions x = false := by
          intro x hx
          have := List.all_eq_true.mp hallb x hx
          simpa using this
        have hin : ∀ x ∈ seg_inside rest, is_end_questions x = false := by
          intro x hx
          have := List.mem_takeWhile_imp (p := fun x => !is_end_questions x)
            (by simpa [seg_inside] using hx)
          simpa using this
        have hindrop : ∀ k, ∀ x ∈ (seg_inside rest).drop k,
            is_end_questions x = false :=
          fun k x hx => hin x (List.drop_subset _ _ hx)
        have hpre : ∀ k, ∀ x ∈ (seg_inside rest).take k,
            is_begin_questions x = false :=
          fun k x hx => hallb2 x (List.take_subset _ _ hx)
        split at h2
        · rename_i hseg
          have htl : ∀ x : Block, ([] : List Block).head? = some x →
              is_end_questions x = true := by
            intro x hx
            exact absurd hx (by simp)
          rw [hseg, reorder_segment]
          split
          · rename_i k hidx
            by_cases hk : k > 0
            · rw [if_pos hk]
              have hks := (List.findIdx?_eq_some_iff_findIdx_eq).mp hidx
              have hlt : k < (seg_inside rest).length := hks.1
              have w : (seg_inside rest).findIdx is_question_cmd <
                  (seg_inside rest).length := by
                rw [hks.2]
                exact hlt
              have hqk := @List.findIdx_getElem _ is_question_cmd (seg_inside rest) w
              simp only [hks.2] at hqk
              have hdrop := List.drop_eq_getElem_cons hlt
              have hfidx : ((seg_inside rest).drop k).findIdx? is_question_cmd =
                  some 0 := by
                rw [hdrop, List.findIdx?_cons]
                simp [hqk]
              rw [no_disp_append_of_no_begin ((seg_inside rest).take k) _ (hpre k)]
              exact no_disp_cons_begin b hb _ [] (hindrop k) htl (Or.inr hfidx)
                (Or.inl rfl)
            · have hk0 : k = 0 := by omega
              subst hk0
              rw [if_neg (by omega)]
              exact no_disp_cons_begin b hb _ [] hin htl (Or.inr hidx) (Or.inl rfl)
          · rename_i hidx
            exact no_disp_cons_begin b hb _ [] hin htl (Or.inl hidx) (Or.inl rfl)
        · rename_i e r2 hseg
          have hseg2 : rest.dropWhile (fun x => !is_end_questions x) = e :: r2 := by
            simpa [seg_rest] using hseg
          have hend : is_end_questions e = true := by
            have h0 := List.head?_dropWhile_not (fun x => !is_end_questions x) rest
            rw [hseg2] at h0
            simpa using h0
          have hr2 : r2.length ≤ n := by
            have hle : (seg_rest rest).length ≤ rest.length := by
              simpa [seg_rest] using
                dropWhile_length_le (fun x => !is_end_questions x) rest
            rw [hseg] at hle
            simp only [List.length_cons] at hle
            omega
          have hnd : no_disp_needed (relocate_questions_preface r2) = true :=
            ih r2 hr2 h2
          have htl : ∀ x : Block,
              (e :: relocate_questions_preface r2).head? = some x →
              is_end_questions x = true := by
            intro x hx
            simp only [List.head?_cons, Option.some.injEq] at hx
            rw [← hx]
            exact hend
          have htail : e :: relocate_questions_preface r2 = [] ∨
              ∃ e2 L, e :: relocate_questions_preface r2 = e2 :: L ∧
                no_disp_needed L = true :=
            Or.inr ⟨e, relocate_questions_preface r2, rfl, hnd⟩
          rw [hseg, reorder_segment]
          split
          · rename_i k hidx
            by_cases hk : k > 0
            · rw [if_pos hk]
              have hks := (List.findIdx?_eq_some_iff_findIdx_eq).mp hidx
              have hlt : k < (seg_inside rest).length := hks.1
              have w : (seg_inside rest).findIdx is_question_cmd <
                  (seg_inside rest).length := by
                rw [hks.2]
                exact hlt
              have hqk := @List.findIdx_getElem _ is_question_cmd (seg_inside rest) w
              simp only [hks.2] at hqk
              have hdrop := List.drop_eq_getElem_cons hlt
              have hfidx : ((seg_inside rest).drop k).findIdx? is_question_cmd =
                  some 0 := by
                rw [hdrop, List.findIdx?_cons]
                simp [hqk]
              rw [no_disp_append_of_no_begin ((seg_inside rest).take k) _ (hpre k)]
              exact no_disp_cons_begin b hb _ _ (hindrop k) htl (Or.inr hfidx) htail
            · have hk0 : k = 0 := by omega
              subst hk0
              rw [if_neg (by omega)]
              exact no_disp_cons_begin b hb _ _ hin htl (Or.inr hidx) htail
          · rename_i hidx
            exact no_disp_cons_begin b hb _ _ hin htl (Or.inl hidx) htail
      · rw [relocate_cons_not_begin b rest (by simpa using hb)]
        rw [no_nested_begin, if_neg hb] at h
        rw [no_disp_needed, if_neg hb]
        exact ih rest hrl h

/-- Claim C7, amended: the preface relocator is idempotent on every
stream in which no begin-questions marker occurs strictly inside
the segment opened by another begin-questions marker, and whenever
no displacement is needed (no non-question content between the
begin marker and the first question command of any segment) it
returns the stream unchanged. -/
theorem preface_relocator_idempotent (bs : List Block)
    (h : no_nested_begin bs = true) :
    relocate_questions_preface (relocate_questions_preface bs) =
      relocate_questions_preface bs ∧
    (no_disp_needed bs = true → relocate_questions_preface bs = bs) :=
  ⟨relocate_no_disp_aux (relocate_questions_preface bs).length _ le_rfl
      (no_disp_of_relocate_aux bs.length bs le_rfl h),
    fun hnd => relocate_no_disp_aux bs.length bs le_rfl hnd⟩

/-- Counterexample for C7 as stated: a transformed stream (the
transform passes raw blocks through unchanged, so the stream is its
own transform) on which applying the relocator twice differs from
applying it once.  The second begin-questions marker, written with
a trailing space the Lua pattern accepts, sits inside the segment
of the first; each pass swaps the two markers. -/
theorem preface_relocator_not_idempotent :
    transform_blocks
        [Block.raw "tex" "\\begin\x7bquestions\x7d",
         Block.raw "tex" "\\begin\x7bquestions\x7d ",
         Block.raw "tex" "\\question",
         Block.raw "tex" "\\end\x7bquestions\x7d"] 0 =
      [Block.raw "tex" "\\begin\x7bquestions\x7d",
       Block.raw "tex" "\\begin\x7bquestions\x7d ",
       Block.raw "tex" "\\question",
       Block.raw "tex" "\\end\x7bquestions\x7d"] ∧
    relocate_questions_preface (relocate_questions_preface
        [Block.raw "tex" "\\begin\x7bquestions\x7d",
         Block.raw "tex" "\\begin\x7bquestions\x7d ",
         Block.raw "tex" "\\question",
         Block.raw "tex" "\\end\x7bquestions\x7d"]) ≠
      relocate_questions_preface
        [Block.raw "tex" "\\begin\x7bquestions\x7d",
         Block.raw "tex" "\\begin\x7bquestions\x7d ",
         Block.raw "tex" "\\question",
         Block.raw "tex" "\\end\x7bquestions\x7d"] := by
  constructor
  · decide
  · decide

/-- Witness for the amended C7 on a well-formed one-segment
stream. -/
theorem preface_relocator_idempotent_witness :
    relocate_questions_preface (relocate_questions_preface
        [Block.raw "tex" "\\begin\x7bquestions\x7d",
         Block.raw "tex" "\\question",
         Block.raw "tex" "\\end\x7bquestions\x7d"]) =
      relocate_questions_preface
        [Block.raw "tex" "\\begin\x7bquestions\x7d",
         Block.raw "tex" "\\question",
         Block.raw "tex" "\\end\x7bquestions\x7d"] ∧
    relocate_questions_preface
        [Block.raw "tex" "\\begin\x7bquestions\x7d",
         Block.raw "tex" "\\question",
         Block.raw "tex" "\\end\x7bquestions\x7d"] =
      [Block.raw "tex" "\\begin\x7bquestions\x7d",
       Block.raw "tex" "\\question",
       Block.raw "tex" "\\end\x7bquestions\x7d"] := by
  have hd : List.dropWhile (fun x => !is_end_questions x)
      [Block.raw "tex" "\\question", Block.raw "tex" "\\end\x7bquestions\x7d"] =
      [Block.raw "tex" "\\end\x7bquestions\x7d"] := by decide
  have hn : no_nested_begin
      [Block.raw "tex" "\\begin\x7bquestions\x7d",
       Block.raw "tex" "\\question",
       Block.raw "tex" "\\end\x7bquestions\x7d"] = true := by
    simp +decide [no_nested_begin, seg_inside, seg_rest, hd]
    split
    · rfl
    · rename_i head r2 heq
      rw [hd] at heq
      injection heq with h1 h2
      subst h2
      simp [no_nested_begin]
  have hnd : no_disp_needed
      [Block.raw "tex" "\\begin\x7bquestions\x7d",
       Block.raw "tex" "\\question",
       Block.raw "tex" "\\end\x7bquestions\x7d"] = true := by
    simp +decide [no_disp_needed, seg_inside, seg_rest, hd]
    split
    · rfl
    · rename_i head r2 heq
      rw [hd] at heq
      injection heq with h1 h2
      subst h2
      simp [no_disp_needed]
  have h := preface_relocator_idempotent _ hn
  exact ⟨h.1, h.2 hnd⟩

/-- tex_texts_list distributes over append. -/
theorem tex_texts_list_append (xs ys : List Block) :
    tex_texts_list (xs ++ ys) = tex_texts_list xs ++ tex_texts_list ys := by
  induction xs with
  | nil => simp [tex_texts_list]
  | cons b xs ih => simp [tex_texts_list, ih]

/-- The balance checker processes an append left to right. -/
theorem check_bal_append (xs ys : List String) :
    ∀ st, check_bal st (xs ++ ys) =
      match check_bal st xs with
      | some st2 => check_bal st2 ys
      | none => none := by
  induction xs with
  | nil => intro st; simp [check_bal]
  | cons t xs ih =>
    intro st
    rw [List.cons_append, check_bal, check_bal]
    match bal_step st t with
    | some st2 => simp [ih st2]
    | none => simp

/-- A token list is balance-neutral when the checker returns every
starting stack unchanged. -/
def bal_neutral (ts : List String) : Prop :=
  ∀ st, check_bal st ts = some st

/-- Neutrality of an append. -/
theorem bal_neutral_append {xs ys : List String}
    (hx : bal_neutral xs) (hy : bal_neutral ys) : bal_neutral (xs ++ ys) := by
  intro st
  rw [check_bal_append, hx st]
  exact hy st

/-- A non-marker token is a passthrough step. -/
theorem bal_neutral_single {t : String}
    (hb : begin_env_name t = none) (he : end_env_name t = none) :
    bal_neutral [t] := by
  intro st
  simp [check_bal, bal_step, hb, he]

/-- Stripping a literal off a list that extends it. -/
theorem stripLit_self_append (ps rest : List Char) :
    stripLit ps (ps ++ rest) = some rest := by
  induction ps with
  | nil => simp [stripLit]
  | cons p ps ih => simp [stripLit, ih]

/-- A tex line whose second character differs from b is no begin
marker. -/
theorem begin_env_name_none_of_second (s : String) (c : Char) (cs : List Char)
    (hs : s.data = '\\' :: c :: cs) (hc : c ≠ 'b') :
    begin_env_name s = none := by
  have hlit : "\\begin\x7b".toList = ['\\', 'b', 'e', 'g', 'i', 'n', '\x7b'] := by
    decide
  rw [begin_env_name, hlit]
  show (match stripLit ['\\', 'b', 'e', 'g', 'i', 'n', '\x7b'] s.data with
    | some rest => if rest.contains '\x7d' then
        some (String.mk (rest.takeWhile (fun c => c != '\x7d'))) else none
    | none => none) = none
  rw [hs]
  simp [stripLit, hc]

/-- A tex line whose second character differs from e is no end
marker. -/
theorem end_env_name_none_of_second (s : String) (c : Char) (cs : List Char)
    (hs : s.data = '\\' :: c :: cs) (hc : c ≠ 'e') :
    end_env_name s = none := by
  have hlit : "\\end\x7b".toList = ['\\', 'e', 'n', 'd', '\x7b'] := by decide
  rw [end_env_name, hlit]
  show (match stripLit ['\\', 'e', 'n', 'd', '\x7b'] s.data with
    | some rest => if rest.contains '\x7d' then
        some (String.mk (rest.takeWhile (fun c => c != '\x7d'))) else none
    | none => none) = none
  rw [hs]
  simp [stripLit, hc]

/-- A literal starting backslash-c followed by anything is no
marker when c is neither b nor e. -/
theorem no_marker_lit_append (lit t : String) (c : Char) (cs : List Char)
    (hd : lit.data = '\\' :: c :: cs) (hb : c ≠ 'b') (he : c ≠ 'e') :
    begin_env_name (lit ++ t) = none ∧ end_env_name (lit ++ t) = none := by
  have hs : (lit ++ t).data = '\\' :: c :: (cs ++ t.data) := by
    rw [String.data_append, hd]
    simp
  exact ⟨begin_env_name_none_of_second _ _ _ hs hb,
    end_env_name_none_of_second _ _ _ hs he⟩

/-- Role commands never parse as environment markers. -/
theorem command_no_marker (d : Nat) (bracket : String) :
    begin_env_name (command_for_depth d ++ bracket) = none ∧
    end_env_name (command_for_depth d ++ bracket) = none := by
  rw [command_for_depth]
  by_cases h1 : d ≤ 1
  · rw [if_pos h1]
    exact no_marker_lit_append _ _ 'q' "uestion".data (by decide)
      (by decide) (by decide)
  · rw [if_neg h1]
    by_cases h2 : d = 2
    · rw [if_pos h2]
      exact no_marker_lit_append _ _ 'p' "art".data (by decide)
        (by decide) (by decide)
    · rw [if_neg h2]
      by_cases h3 : d = 3
      · rw [if_pos h3]
        exact no_marker_lit_append _ _ 's' "ubpart".data (by decide)
          (by decide) (by decide)
      · rw [if_neg h3]
        exact no_marker_lit_append _ _ 's' "ubsubpart".data (by decide)
          (by decide) (by decide)

/-- Emitted command lines never parse as environment markers. -/
theorem cmdline_no_marker (nd : Nat) (title : Option String) (bracket : String) :
    begin_env_name (cmdline_for nd title bracket) = none ∧
    end_env_name (cmdline_for nd title bracket) = none := by
  rw [cmdline_for]
  by_cases h1 : nd = 1
  · rw [if_pos h1]
    by_cases h2 : has_text title
    · rw [if_pos h2]
      have hs : ("\\titledquestion\x7b" ++ title.getD "" ++ "\x7d" ++ bracket).data =
          '\\' :: 't' :: ("itledquestion\x7b".data ++ (title.getD "").data ++
            "\x7d".data ++ bracket.data) := by
        simp only [String.data_append]
        simp
      exact ⟨begin_env_name_none_of_second _ _ _ hs (by decide),
        end_env_name_none_of_second _ _ _ hs (by decide)⟩
    · rw [if_neg h2]
      exact no_marker_lit_append _ _ 'q' "uestion".data (by decide)
        (by decide) (by decide)
  · rw [if_neg h1]
    exact command_no_marker nd bracket

/-- The begin-solution marker parses as the solution environment
for any bracket suffix, and never as an end marker. -/
theorem begin_solution_parses (sbr : String) :
    begin_env_name ("\\begin\x7bsolution\x7d" ++ sbr) = some "solution" ∧
    end_env_name ("\\begin\x7bsolution\x7d" ++ sbr) = none := by
  constructor
  · rw [begin_env_name]
    have hs : ("\\begin\x7bsolution\x7d" ++ sbr).toList =
        "\\begin\x7b".toList ++ ("solution".data ++ ('\x7d' :: sbr.data)) := by
      show ("\\begin\x7bsolution\x7d" ++ sbr).data = _
      simp only [String.data_append]
      simp
    rw [hs, stripLit_self_append]
    have htake := takeWhile_dropWhile_append (fun c => c != '\x7d')
      "solution".data ('\x7d' :: sbr.data) (by decide)
      (by intro x hx; simp only [List.head?_cons, Option.some.injEq] at hx;
          rw [← hx]; decide)
    have hcontains : ("solution".data ++ '\x7d' :: sbr.data).contains '\x7d' = true := by
      simp
    show (if ("solution".data ++ '\x7d' :: sbr.data).contains '\x7d' = true then
        some (String.mk (("solution".data ++ '\x7d' :: sbr.data).takeWhile
          (fun c => c != '\x7d'))) else none) = some "solution"
    rw [if_pos hcontains, htake.1]
  · have hs : ("\\begin\x7bsolution\x7d" ++ sbr).data =
        '\\' :: 'b' :: ("egin\x7bsolution\x7d".data ++ sbr.data) := by
      simp only [String.data_append]
      simp
    exact end_env_name_none_of_second _ _ _ hs (by decide)

/-- The environment names produced for part-child runs parse back
from their begin and end markers and from nothing else. -/
theorem env_markers_parse (nd : Nat) (e : String)
    (h : env_for_child_depth (nd + 1) = some e) :
    begin_env_name ("\\begin\x7b" ++ e ++ "\x7d") = some e ∧
    end_env_name ("\\begin\x7b" ++ e ++ "\x7d") = none ∧
    end_env_name ("\\end\x7b" ++ e ++ "\x7d") = some e ∧
    begin_env_name ("\\end\x7b" ++ e ++ "\x7d") = none := by
  rw [env_for_child_depth] at h
  split at h
  · have he : e = "parts" := by injection h with h; exact h.symm
    subst he
    refine ⟨by decide, by decide, by decide, by decide⟩
  · split at h
    · have he : e = "subparts" := by injection h with h; exact h.symm
      subst he
      refine ⟨by decide, by decide, by decide, by decide⟩
    · split at h
      · have he : e = "subsubparts" := by injection h with h; exact h.symm
        subst he
        refine ⟨by decide, by decide, by decide, by decide⟩
      · exact absurd h (by simp)

/-- Composition step for the balance checker. -/
theorem check_bal_append_eval {st st2 : List String} {xs : List String}
    (ys : List String) (h : check_bal st xs = some st2) :
    check_bal st (xs ++ ys) = check_bal st2 ys := by
  rw [check_bal_append, h]

/-- Every block weighs at least one. -/
theorem blockSize_pos (b : Block) : 1 ≤ blockSize b := by
  cases b <;> simp [blockSize]

/-- The environment stack pushed before a run of part children. -/
def push_env (nd : Nat) (st : List String) : List String :=
  match env_for_child_depth (nd + 1) with
  | some e => e :: st
  | none => st

/-- Joint neutrality of the transform emission: the whole transform
is balance-neutral, child scanning outside a run is balance-neutral,
and child scanning inside a run closes exactly the one pushed
environment, for marker-free input. -/
theorem transform_neutral_aux : ∀ (n : Nat),
    (∀ bs, blockListSize bs ≤ n → marker_free_list bs = true → ∀ d,
      bal_neutral (tex_texts_list (transform_blocks bs d))) ∧
    (∀ bs, blockListSize bs ≤ n → marker_free_list bs = true → ∀ nd,
      bal_neutral (tex_texts_list (scan_children bs nd))) ∧
    (∀ bs, blockListSize bs ≤ n → marker_free_list bs = true → ∀ nd st,
      check_bal (push_env nd st) (tex_texts_list (scan_run bs nd)) = some st) := by
  intro n
  induction n using Nat.strong_induction_on with
  | _ n ih =>
  have hblock : ∀ b, blockSize b ≤ n → marker_free b = true → ∀ d,
      bal_neutral (tex_texts_list (transform_block b d)) := by
    intro b hb hm d
    match b with
    | .raw f t =>
      have heq : transform_block (Block.raw f t) d = [Block.raw f t] := rfl
      rw [heq]
      by_cases hf : f = "tex"
      · subst hf
        have hbn : begin_env_name t = none := by
          cases hbn : begin_env_name t with
          | none => rfl
          | some e =>
            rw [marker_free, hbn] at hm
            simp at hm
        have hen : end_env_name t = none := by
          cases hen : end_env_name t with
          | none => rfl
          | some e =>
            rw [marker_free, hen] at hm
            simp at hm
        have : tex_texts_list [Block.raw "tex" t] = [t] := by
          simp [tex_texts_list, tex_texts]
        rw [this]
        exact bal_neutral_single hbn hen
      · have : tex_texts_list [Block.raw f t] = [] := by
          simp [tex_texts_list, tex_texts, hf]
        rw [this]
        intro st
        simp [check_bal]
    | .other tg =>
      have heq : transform_block (Block.other tg) d = [Block.other tg] := rfl
      rw [heq]
      have : tex_texts_list [Block.other tg] = [] := by
        simp [tex_texts_list, tex_texts]
      rw [this]
      intro st
      simp [check_bal]
    | .div i c a content =>
      have hsz : blockListSize content < n := by
        have : blockSize (Block.div i c a content) = 1 + blockListSize content := by
          simp [blockSize]
        omega
      have hmc : marker_free_list content = true := by
        rw [marker_free] at hm
        exact hm
      rw [transform_block]
      by_cases hp : is_part_div (.div i c a content)
      · rw [if_pos hp]
        have hscan := ((ih _ hsz).2.1) content le_rfl hmc (d + 1)
        have htexts : tex_texts_list
            (Block.raw "tex" (cmdline_for (d + 1) (lookupAttr a "title")
                (bracket_of (normalize_points (points_attr a)))) ::
              scan_children content (d + 1)) =
            [cmdline_for (d + 1) (lookupAttr a "title")
                (bracket_of (normalize_points (points_attr a)))] ++
              tex_texts_list (scan_children content (d + 1)) := by
          simp [tex_texts_list, tex_texts]
        rw [htexts]
        have hcmd := cmdline_no_marker (d + 1) (lookupAttr a "title")
          (bracket_of (normalize_points (points_attr a)))
        exact bal_neutral_append (bal_neutral_single hcmd.1 hcmd.2) hscan
      · rw [if_neg hp]
        by_cases hs : is_solution_div (.div i c a content)
        · rw [if_pos hs]
          have hbody := ((ih _ hsz).1) content le_rfl hmc d
          intro st
          have htexts : tex_texts_list
              (Block.raw "tex" ("\\begin\x7bsolution\x7d" ++ bracket_of (space_attr a)) ::
                (transform_blocks content d ++ [Block.raw "tex" "\\end\x7bsolution\x7d"])) =
              ("\\begin\x7bsolution\x7d" ++ bracket_of (space_attr a)) ::
                (tex_texts_list (transform_blocks content d) ++
                  ["\\end\x7bsolution\x7d"]) := by
            simp [tex_texts_list, tex_texts, tex_texts_list_append]
          rw [htexts]
          rw [check_bal]
          have hbp := begin_solution_parses (bracket_of (space_attr a))
          rw [show bal_step st ("\\begin\x7bsolution\x7d" ++ bracket_of (space_attr a)) =
            some ("solution" :: st) from by simp [bal_step, hbp.1]]
          show check_bal ("solution" :: st)
            (tex_texts_list (transform_blocks content d) ++
              ["\\end\x7bsolution\x7d"]) = some st
          rw [check_bal_append, hbody ("solution" :: st)]
          show check_bal ("solution" :: st) ["\\end\x7bsolution\x7d"] = some st
          simp [check_bal, bal_step, show begin_env_name "\\end\x7bsolution\x7d" = none from by decide,
            show end_env_name "\\end\x7bsolution\x7d" = some "solution" from by decide]
        · rw [if_neg hs]
          have hbody := ((ih _ hsz).1) content le_rfl hmc d
          have htexts : tex_texts_list [Block.div i c a (transform_blocks content d)] =
              tex_texts_list (transform_blocks content d) := by
            simp [tex_texts_list, tex_texts]
          rw [htexts]
          exact hbody
  refine ⟨?_, ?_, ?_⟩
  · intro bs hsize hm d
    match bs with
    | [] =>
      intro st
      simp [transform_blocks, tex_texts_list, check_bal]
    | b :: rest =>
      have hsz1 : blockSize b ≤ n := by
        have : blockListSize (b :: rest) = blockSize b + blockListSize rest := by
          simp [blockListSize]
        omega
      have hsz2 : blockListSize rest < n := by
        have h1 : blockListSize (b :: rest) = blockSize b + blockListSize rest := by
          simp [blockListSize]
        have := blockSize_pos b
        omega
      rw [marker_free_list] at hm
      obtain ⟨hm1, hm2⟩ := (Bool.and_eq_true _ _).mp hm
      rw [transform_blocks, tex_texts_list_append]
      exact bal_neutral_append (hblock b hsz1 hm1 d)
        (((ih _ hsz2).1) rest le_rfl hm2 d)
  · intro bs hsize hm nd
    match bs with
    | [] =>
      intro st
      simp [scan_children, tex_texts_list, check_bal]
    | c :: rest =>
      have hsz1 : blockSize c ≤ n := by
        have : blockListSize (c :: rest) = blockSize c + blockListSize rest := by
          simp [blockListSize]
        omega
      have hsz2 : blockListSize rest < n := by
        have h1 : blockListSize (c :: rest) = blockSize c + blockListSize rest := by
          simp [blockListSize]
        have := blockSize_pos c
        omega
      rw [marker_free_list] at hm
      obtain ⟨hm1, hm2⟩ := (Bool.and_eq_true _ _).mp hm
      rw [scan_children]
      by_cases hc : is_part_div c
      · rw [if_pos hc]
        intro st
        rw [tex_texts_list_append, tex_texts_list_append]
        cases henv : env_for_child_depth (nd + 1) with
        | none =>
          have hbe : tex_texts_list (beginEnvBlocks nd) = [] := by
            simp [beginEnvBlocks, henv, tex_texts_list]
          have h1 : check_bal st (tex_texts_list (beginEnvBlocks nd)) = some st := by
            rw [hbe]
            rfl
          rw [check_bal_append_eval _ h1,
            check_bal_append_eval _ (hblock c hsz1 hm1 nd st)]
          have := ((ih _ hsz2).2.2) rest le_rfl hm2 nd st
          rw [push_env, henv] at this
          exact this
        | some e =>
          have hpar := env_markers_parse nd e henv
          have hbe : tex_texts_list (beginEnvBlocks nd) =
              ["\\begin\x7b" ++ e ++ "\x7d"] := by
            simp [beginEnvBlocks, henv, tex_texts_list, tex_texts]
          have h1 : check_bal st (tex_texts_list (beginEnvBlocks nd)) =
              some (e :: st) := by
            rw [hbe]
            simp [check_bal, bal_step, hpar.1]
          rw [check_bal_append_eval _ h1,
            check_bal_append_eval _ (hblock c hsz1 hm1 nd (e :: st))]
          have := ((ih _ hsz2).2.2) rest le_rfl hm2 nd st
          rw [push_env, henv] at this
          exact this
      · rw [if_neg hc]
        rw [tex_texts_list_append]
        exact bal_neutral_append (hblock c hsz1 hm1 nd)
          (((ih _ hsz2).2.1) rest le_rfl hm2 nd)
  · intro bs hsize hm nd st
    match bs with
    | [] =>
      rw [scan_run]
      cases henv : env_for_child_depth (nd + 1) with
      | none =>
        have hbe : tex_texts_list (endEnvBlocks nd) = [] := by
          simp [endEnvBlocks, henv, tex_texts_list]
        rw [hbe, push_env, henv]
        rfl
      | some e =>
        have hpar := env_markers_parse nd e henv
        have hbe : tex_texts_list (endEnvBlocks nd) =
            ["\\end\x7b" ++ e ++ "\x7d"] := by
          simp [endEnvBlocks, henv, tex_texts_list, tex_texts]
        rw [hbe, push_env, henv]
        simp [check_bal, bal_step, hpar.2.2.1, hpar.2.2.2]
    | c :: rest =>
      have hsz1 : blockSize c ≤ n := by
        have : blockListSize (c :: rest) = blockSize c + blockListSize rest := by
          simp [blockListSize]
        omega
      have hsz2 : blockListSize rest < n := by
        have h1 : blockListSize (c :: rest) = blockSize c + blockListSize rest := by
          simp [blockListSize]
        have := blockSize_pos c
        omega
      rw [marker_free_list] at hm
      obtain ⟨hm1, hm2⟩ := (Bool.and_eq_true _ _).mp hm
      rw [scan_run]
      by_cases hc : is_part_div c
      · rw [if_pos hc]
        rw [tex_texts_list_append]
        rw [check_bal_append_eval _ (hblock c hsz1 hm1 nd (push_env nd st))]
        exact ((ih _ hsz2).2.2) rest le_rfl hm2 nd st
      · rw [if_neg hc]
        rw [tex_texts_list_append, tex_texts_list_append]
        cases henv : env_for_child_depth (nd + 1) with
        | none =>
          have hbe : tex_texts_list (endEnvBlocks nd) = [] := by
            simp [endEnvBlocks, henv, tex_texts_list]
          have h1 : check_bal (push_env nd st) (tex_texts_list (endEnvBlocks nd)) =
              some st := by
            rw [hbe, push_env, henv]
            rfl
          rw [check_bal_append_eval _ h1,
            check_bal_append_eval _ (hblock c hsz1 hm1 nd st)]
          exact ((ih _ hsz2).2.1) rest le_rfl hm2 nd st
        | some e =>
          have hpar := env_markers_parse nd e henv
          have hbe : tex_texts_list (endEnvBlocks nd) =
              ["\\end\x7b" ++ e ++ "\x7d"] := by
            simp [endEnvBlocks, henv, tex_texts_list, tex_texts]
          have h1 : check_bal (push_env nd st) (tex_texts_list (endEnvBlocks nd)) =
              some st := by
            rw [hbe, push_env, henv]
            simp [check_bal, bal_step, hpar.2.2.1, hpar.2.2.2]
          rw [check_bal_append_eval _ h1,
            check_bal_append_eval _ (hblock c hsz1 hm1 nd st)]
          exact ((ih _ hsz2).2.1) rest le_rfl hm2 nd st

/-- Counterexample for C2 as stated: an input tree of nesting depth
zero that already contains a raw end-marker line; the transform
passes raw blocks through unchanged, so the output is unbalanced
(the checker fails on the dangling end marker). -/
theorem balanced_markers_counterexample :
    part_depth_list [Block.raw "tex" "\\end\x7bparts\x7d"] ≤ 4 ∧
    transform_blocks [Block.raw "tex" "\\end\x7bparts\x7d"] 0 =
      [Block.raw "tex" "\\end\x7bparts\x7d"] ∧
    check_bal [] (tex_texts_list (transform_blocks
      [Block.raw "tex" "\\end\x7bparts\x7d"] 0)) = none := by decide

/-- Claim C2, amended: for every input tree none of whose raw tex
blocks itself parses as a begin or end environment marker (and in
particular for every tree of container nesting depth at most 4),
the batch transform output has exactly balanced begin/end markers
and every begin marker is matched by an end marker of the identical
name: the stack checker accepts the emitted tex stream. -/
theorem balanced_markers (bs : List Block)
    (hdepth : part_depth_list bs ≤ 4)
    (hfree : marker_free_list bs = true) :
    check_bal [] (tex_texts_list (transform_blocks bs 0)) = some [] :=
  (transform_neutral_aux (blockListSize bs)).1 bs le_rfl hfree 0 []

/-- Witness for the amended C2: a four-deep part tree with a stray
raw text block and an opaque block. -/
theorem balanced_markers_witness :
    check_bal [] (tex_texts_list (transform_blocks
      [Block.div "" ["part"] []
        [Block.div "" ["part"] []
          [Block.div "" ["part"] []
            [Block.div "" ["part"] [] []]],
         Block.raw "tex" "plain text"],
       Block.other 2] 0)) = some [] :=
  balanced_markers _ (by decide) (by decide)

/-- A node of the editor document as the indent command inspects
it: whether its type is the part node type, and its total token
size (nodeSize; a container occupies its content size plus two
boundary tokens). -/
structure PMNode where
  isPart : Bool
  nodeSize : Nat
deriving Repr, DecidableEq

/-- Sum of the node sizes of a list of children. -/
def sumSizes : List PMNode → Nat
  | [] => 0
  | c :: rest => c.nodeSize + sumSizes rest

/-- The backward scan of the indent command over the children
strictly before the selected index: it keeps the last part sibling
seen, with its start position, advancing the position by each
nodeSize. -/
def scan_nearest : List PMNode → Nat → Nat → Option (PMNode × Nat) →
    Option (PMNode × Nat)
  | _, 0, _, nearest => nearest
  | [], _ + 1, _, nearest => nearest
  | ch :: rest, i + 1, pos, nearest =>
    scan_nearest rest i (pos + ch.nodeSize)
      (if ch.isPart then some (ch, pos) else nearest)

/-- The nearest preceding part sibling as the specification words
it: the last part child strictly before the index, with its start
position. -/
def last_part_before : List PMNode → Nat → Nat → Option (PMNode × Nat)
  | _, 0, _ => none
  | [], _ + 1, _ => none
  | ch :: rest, i + 1, pos =>
    match last_part_before rest i (pos + ch.nodeSize) with
    | some r => some r
    | none => if ch.isPart then some (ch, pos) else none

/-- nodeStartInParent from the source: the start position of the
child at the index, with the source fallback to the parent start
when the index is out of range. -/
def node_start_in_parent (children : List PMNode) (parentStart index : Nat) : Nat :=
  if index < children.length then parentStart + sumSizes (children.take index)
  else parentStart

/-- Position mapping through the one deletion step the indent
transaction applies before inserting, modelling the transaction
mapping of the host editing framework: positions before the
deleted range are unchanged, positions after it shift down,
positions inside collapse to its start. -/
def map_delete (dfrom dto pos : Nat) : Nat :=
  if pos < dfrom then pos
  else if dto ≤ pos then pos - (dto - dfrom)
  else dfrom

/-- The indent command of the part node: it fails (none, no
dispatch, state untouched) when the selected index is zero or no
part sibling precedes it; otherwise it deletes the current subtree,
inserts it as the last child of the nearest preceding part sibling,
and remaps anchor and head by the offsets captured relative to the
content start of the moved subtree, lower-clamped at its new
content start.  The value is the new anchor/head pair. -/
def part_indent (children : List PMNode) (parentStart index : Nat)
    (anchor head : Int) : Option (Int × Int) :=
  if index = 0 then none
  else
    match scan_nearest children index parentStart none with
    | none => none
    | some (nnode, nstart) =>
      match children[index]? with
      | none => none
      | some current =>
        let nodeStart := node_start_in_parent children parentStart index
        let currentEnd := nodeStart + current.nodeSize
        let relAnchor : Int := anchor - ((nodeStart : Int) + 1)
        let relHead : Int := head - ((nodeStart : Int) + 1)
        let insertInsidePrev := nstart + nnode.nodeSize - 1
        let mappedInsert := map_delete nodeStart currentEnd insertInsidePrev
        let base : Int := (mappedInsert : Int) + 1
        some (max base (base + relAnchor), max base (base + relHead))

/-- The source scan with an accumulator returns the last preceding
part sibling, falling back to the accumulator. -/
theorem scan_nearest_eq (children : List PMNode) :
    ∀ index pos acc, scan_nearest children index pos acc =
      match last_part_before children index pos with
      | some r => some r
      | none => acc := by
  induction children with
  | nil =>
    intro index pos acc
    cases index <;> simp [scan_nearest, last_part_before]
  | cons ch rest ih =>
    intro index pos acc
    cases index with
    | zero => simp [scan_nearest, last_part_before]
    | succ i =>
      rw [scan_nearest, last_part_before, ih i (pos + ch.nodeSize)]
      cases hl : last_part_before rest i (pos + ch.nodeSize) with
      | some r => simp
      | none => by_cases hp : ch.isPart <;> simp [hp]

/-- No preceding part sibling exists exactly when every child
strictly before the index is not a part. -/
theorem last_part_before_none_iff (children : List PMNode) :
    ∀ index pos, last_part_before children index pos = none ↔
      (∀ j n, j < index → children[j]? = some n → n.isPart = false) := by
  induction children with
  | nil =>
    intro index pos
    cases index <;> simp [last_part_before]
  | cons ch rest ih =>
    intro index pos
    cases index with
    | zero => simp [last_part_before]
    | succ i =>
      rw [last_part_before]
      constructor
      · intro h j n hj hn
        cases hl : last_part_before rest i (pos + ch.nodeSize) with
        | some r =>
          rw [hl] at h
          exact absurd h (by simp)
        | none =>
          rw [hl] at h
          cases j with
          | zero =>
            simp only [List.getElem?_cons_zero, Option.some.injEq] at hn
            by_cases hp : ch.isPart
            · rw [if_pos hp] at h
              exact absurd h (by simp)
            · rw [← hn]
              simpa using hp
          | succ j2 =>
            exact (ih i (pos + ch.nodeSize)).mp hl j2 n (by omega)
              (by simpa using hn)
      · intro h
        have h0 : ch.isPart = false := by
          have := h 0 ch (by omega) (by simp)
          exact this
        have hr : last_part_before rest i (pos + ch.nodeSize) = none :=
          (ih i (pos + ch.nodeSize)).mpr
            (fun j n hj hn => h (j + 1) n (by omega) (by simpa using hn))
        rw [hr]
        simp [h0]

/-- A found nearest sibling is a part child strictly before the
index, its start is the parent start plus the sizes before it, and
no later child before the index is a part. -/
theorem last_part_before_some (children : List PMNode) :
    ∀ index pos n s, last_part_before children index pos = some (n, s) →
      ∃ j, j < index ∧ children[j]? = some n ∧ n.isPart = true ∧
        s = pos + sumSizes (children.take j) ∧
        (∀ k m, j < k → k < index → children[k]? = some m →
          m.isPart = false) := by
  induction children with
  | nil =>
    intro index pos n s h
    cases index <;> simp [last_part_before] at h
  | cons ch rest ih =>
    intro index pos n s h
    cases index with
    | zero => simp [last_part_before] at h
    | succ i =>
      rw [last_part_before] at h
      cases hl : last_part_before rest i (pos + ch.nodeSize) with
      | some r =>
        rw [hl] at h
        have hr : r = (n, s) := Option.some.inj h
        subst hr
        obtain ⟨j, hj, hjn, hp, hs, hlast⟩ := ih i (pos + ch.nodeSize) n s hl
        refine ⟨j + 1, by omega, by simpa using hjn, hp, ?_, ?_⟩
        · rw [hs]
          simp [sumSizes]
          omega
        · intro k m hk1 hk2 hkm
          cases k with
          | zero => omega
          | succ k2 =>
            exact hlast k2 m (by omega) (by omega) (by simpa using hkm)
      | none =>
        rw [hl] at h
        by_cases hp : ch.isPart
        · rw [if_pos hp] at h
          have hns : ch = n ∧ pos = s := by
            have h2 := Option.some.inj h
            exact ⟨congrArg Prod.fst h2, congrArg Prod.snd h2⟩
          obtain ⟨hn, hs⟩ := hns
          refine ⟨0, by omega, by simp [hn], by rw [← hn]; exact hp, ?_, ?_⟩
          · rw [← hs]
            simp [sumSizes]
          · intro k m hk1 hk2 hkm
            cases k with
            | zero => omega
            | succ k2 =>
              exact (last_part_before_none_iff rest i (pos + ch.nodeSize)).mp hl
                k2 m (by omega) (by simpa using hkm)
        · rw [if_neg hp] at h
          exact absurd h (by simp)

/-- Sizes of prefixes grow with the prefix length. -/
theorem sumSizes_take_le (l : List PMNode) :
    ∀ a b, a ≤ b → sumSizes (l.take a) ≤ sumSizes (l.take b) := by
  induction l with
  | nil => intro a b _; simp
  | cons c rest ih =>
    intro a b hab
    cases a with
    | zero => simp [sumSizes]
    | succ a2 =>
      cases b with
      | zero => omega
      | succ b2 =>
        simp only [List.take_succ_cons, sumSizes]
        have := ih a2 b2 (by omega)
        omega

/-- Extending a prefix past a known element adds its size. -/
theorem sumSizes_take_succ (l : List PMNode) :
    ∀ j n, l[j]? = some n →
      sumSizes (l.take (j + 1)) = sumSizes (l.take j) + n.nodeSize := by
  induction l with
  | nil => intro j n h; simp at h
  | cons c rest ih =>
    intro j n h
    cases j with
    | zero =>
      simp only [List.getElem?_cons_zero, Option.some.injEq] at h
      rw [← h]
      simp [sumSizes]
    | succ j2 =>
      simp only [List.getElem?_cons_succ] at h
      simp only [List.take_succ_cons, sumSizes, ih j2 n h]
      omega

/-- Claim C8: the indent command succeeds only when a part sibling
strictly precedes the selected child in the same parent; the
nearest such sibling is found scanning backward, skipping non-part
siblings (the scan result is exactly the last part child before
the index, and every child between it and the index is not a
part); when none exists, in particular when the index is zero, the
command returns none and nothing is dispatched, so tree and
selection stay unchanged. -/
theorem indent_requires_preceding_part
    (children : List PMNode) (parentStart index : Nat) (anchor hd : Int)
    (hidx : index < children.length) :
    (part_indent children parentStart index anchor hd = none ↔
      (index = 0 ∨ ∀ j n, j < index → children[j]? = some n →
        n.isPart = false)) ∧
    (∀ n s, last_part_before children index parentStart = some (n, s) →
      ∃ j, j < index ∧ children[j]? = some n ∧ n.isPart = true ∧
        (∀ k m, j < k → k < index → children[k]? = some m →
          m.isPart = false)) ∧
    scan_nearest children index parentStart none =
      last_part_before children index parentStart := by
  refine ⟨?_, ?_, ?_⟩
  · rw [part_indent]
    by_cases h0 : index = 0
    · simp [h0]
    · rw [if_neg h0, scan_nearest_eq]
      cases hl : last_part_before children index parentStart with
      | none =>
        simp only []
        constructor
        · intro _
          exact Or.inr ((last_part_before_none_iff children index parentStart).mp hl)
        · intro _
          trivial
      | some r =>
        obtain ⟨n, s⟩ := r
        have hcur := List.getElem?_eq_getElem hidx
        rw [hcur]
        obtain ⟨j, hj, hjn, hp, _, _⟩ :=
          last_part_before_some children index parentStart n s hl
        constructor
        · intro h
          exact absurd h (by simp)
        · rintro (h | h)
          · exact absurd h h0
          · have := h j n hj hjn
            rw [hp] at this
            exact absurd this (by decide)
  · intro n s h
    obtain ⟨j, h1, h2, h3, _, h5⟩ :=
      last_part_before_some children index parentStart n s h
    exact ⟨j, h1, h2, h3, h5⟩
  · rw [scan_nearest_eq]
    cases hl : last_part_before children index parentStart <;> simp

/-- Witness for C8: the second child has no preceding part sibling
(the first child is not a part), so the command is not applicable
and returns none. -/
theorem indent_requires_preceding_part_witness :
    part_indent [PMNode.mk false 3, PMNode.mk true 4] 0 1 2 2 = none :=
  (indent_requires_preceding_part [PMNode.mk false 3, PMNode.mk true 4]
      0 1 2 2 (by decide)).1.mpr
    (Or.inr (by
      intro j n hj hn
      have hj0 : j = 0 := by omega
      subst hj0
      simp only [List.getElem?_cons_zero, Option.some.injEq] at hn
      rw [← hn]))

/-- Claim C9: on a successful indent splice with the selection held
inside the moved subtree (the state model of the specification),
the resulting anchor and head equal the moved subtree content start
after reinsertion (the start of the located sibling plus its size)
plus the selection offsets captured relative to the subtree content
start before removal, clamped to the content bounds of the moved
subtree at both ends; under the containment hypotheses the clamp is
inactive and the code lower clamp agrees with it. -/
theorem indent_cursor_remap
    (children : List PMNode) (parentStart index : Nat) (anchor hd : Int)
    (n current : PMNode) (s : Nat)
    (hidx : index < children.length)
    (h0 : index ≠ 0)
    (hcur : children[index]? = some current)
    (hl : last_part_before children index parentStart = some (n, s))
    (hn1 : 1 ≤ n.nodeSize)
    (hc2 : 2 ≤ current.nodeSize)
    (hanchor1 : ((parentStart + sumSizes (children.take index) : Nat) : Int) + 1 ≤ anchor)
    (hanchor2 : anchor ≤ ((parentStart + sumSizes (children.take index) : Nat) : Int) +
      current.nodeSize - 1)
    (hhd1 : ((parentStart + sumSizes (children.take index) : Nat) : Int) + 1 ≤ hd)
    (hhd2 : hd ≤ ((parentStart + sumSizes (children.take index) : Nat) : Int) +
      current.nodeSize - 1) :
    part_indent children parentStart index anchor hd =
      some
        (min (max (((s + n.nodeSize : Nat) : Int) +
            (anchor - (((parentStart + sumSizes (children.take index) : Nat) : Int) + 1)))
            ((s + n.nodeSize : Nat) : Int))
          (((s + n.nodeSize : Nat) : Int) + ((current.nodeSize : Int) - 2)),
        min (max (((s + n.nodeSize : Nat) : Int) +
            (hd - (((parentStart + sumSizes (children.take index) : Nat) : Int) + 1)))
            ((s + n.nodeSize : Nat) : Int))
          (((s + n.nodeSize : Nat) : Int) + ((current.nodeSize : Int) - 2))) := by
  obtain ⟨j, hj, hjn, _, hs, _⟩ :=
    last_part_before_some children index parentStart n s hl
  have hN : node_start_in_parent children parentStart index =
      parentStart + sumSizes (children.take index) := by
    rw [node_start_in_parent, if_pos hidx]
  have hbound : s + n.nodeSize ≤ parentStart + sumSizes (children.take index) := by
    have h1 : s + n.nodeSize =
        parentStart + sumSizes (children.take (j + 1)) := by
      rw [hs, sumSizes_take_succ children j n hjn]
      omega
    have h2 := sumSizes_take_le children (j + 1) index (by omega)
    omega
  rw [part_indent, if_neg h0, scan_nearest_eq, hl, hcur]
  show some
      (max (((map_delete (node_start_in_parent children parentStart index)
          (node_start_in_parent children parentStart index + current.nodeSize)
          (s + n.nodeSize - 1) : Nat) : Int) + 1)
        ((((map_delete (node_start_in_parent children parentStart index)
          (node_start_in_parent children parentStart index + current.nodeSize)
          (s + n.nodeSize - 1) : Nat) : Int) + 1) +
          (anchor - (((node_start_in_parent children parentStart index : Nat) : Int) + 1))),
       max (((map_delete (node_start_in_parent children parentStart index)
          (node_start_in_parent children parentStart index + current.nodeSize)
          (s + n.nodeSize - 1) : Nat) : Int) + 1)
        ((((map_delete (node_start_in_parent children parentStart index)
          (node_start_in_parent children parentStart index + current.nodeSize)
          (s + n.nodeSize - 1) : Nat) : Int) + 1) +
          (hd - (((node_start_in_parent children parentStart index : Nat) : Int) + 1)))) = _
  rw [hN]
  have hmap : map_delete (parentStart + sumSizes (children.take index))
      (parentStart + sumSizes (children.take index) + current.nodeSize)
      (s + n.nodeSize - 1) =
      s + n.nodeSize - 1 := by
    rw [map_delete, if_pos (by omega)]
  rw [hmap]
  have hbase : ((s + n.nodeSize - 1 : Nat) : Int) + 1 =
      ((s + n.nodeSize : Nat) : Int) := by
    omega
  rw [hbase]
  have hA : max (((s + n.nodeSize : Nat) : Int))
      ((((s + n.nodeSize : Nat) : Int)) +
        (anchor - (((parentStart + sumSizes (children.take index) : Nat) : Int) + 1))) =
      min (max (((s + n.nodeSize : Nat) : Int) +
          (anchor - (((parentStart + sumSizes (children.take index) : Nat) : Int) + 1)))
          ((s + n.nodeSize : Nat) : Int))
        (((s + n.nodeSize : Nat) : Int) + ((current.nodeSize : Int) - 2)) := by
    rw [max_comm, min_eq_left]
    push_cast
    omega
  have hH : max (((s + n.nodeSize : Nat) : Int))
      ((((s + n.nodeSize : Nat) : Int)) +
        (hd - (((parentStart + sumSizes (children.take index) : Nat) : Int) + 1))) =
      min (max (((s + n.nodeSize : Nat) : Int) +
          (hd - (((parentStart + sumSizes (children.take index) : Nat) : Int) + 1)))
          ((s + n.nodeSize : Nat) : Int))
        (((s + n.nodeSize : Nat) : Int) + ((current.nodeSize : Int) - 2)) := by
    rw [max_comm, min_eq_left]
    push_cast
    omega
  rw [hA, hH]

/-- Witness for C9: moving the third child (size 6, selection at
positions 10 and 12, one and three past its content start 9)
behind the first child (a part of size 4 starting at 1) lands the
selection at 6 and 8, one and three past the new content start
5. -/
theorem indent_cursor_remap_witness :
    part_indent [PMNode.mk true 4, PMNode.mk false 3, PMNode.mk true 6]
      1 2 10 12 = some (6, 8) := by
  have h := indent_cursor_remap
    [PMNode.mk true 4, PMNode.mk false 3, PMNode.mk true 6]
    1 2 10 12 (PMNode.mk true 4) (PMNode.mk true 6) 1
    (by decide) (by decide) (by decide) (by decide) (by decide) (by decide)
    (by decide) (by decide) (by decide) (by decide)
  rw [h]
  decide
